import Mathlib

/-!
Verification of the CodeMapper two-pass call-graph extractor (main.go,
current revision: the one with skip patterns, printer-based receiver
rendering and the empty-mapping filter).  The Go source is shallowly
embedded: maps become association lists or functions, the AST walk
becomes structural recursion over an explicit syntax tree, and the
caller-ID stack is a Lean list whose head is the top of the stack.
-/

namespace CodeMapper

/-- `Definition` record (main.go): a declared function or method. -/
structure Definition where
  id : String
  name : String
  pkg : String
  filePath : String
  line : Nat
deriving DecidableEq, Repr

/-- `CallSite` record (main.go): where a Definition is called. -/
structure CallSite where
  filePath : String
  line : Nat
  callerID : String
deriving DecidableEq, Repr

/-- `Mapping` record (main.go): a Definition with all its call sites. -/
structure Mapping where
  definition : Definition
  callSites : List CallSite
deriving DecidableEq, Repr

/-- Receiver type expressions as they occur in legal method declarations:
a named type, a pointer to a receiver type, or a generic instantiation
`T[p1, p2]` whose arguments are type-parameter identifiers.  This is the
domain of `fn.Recv.List[0].Type` in `findDefinitions`. -/
inductive RecvType where
  | ident (name : String)
  | star (t : RecvType)
  | index (base : RecvType) (params : List String)
deriving DecidableEq, Repr

/-- Comma separator used by the go/printer for expression lists. -/
def joinComma : List String → String
  | [] => ""
  | [x] => x
  | x :: y :: xs => x ++ ", " ++ joinComma (y :: xs)

/-- `printer.Fprint` on a receiver type expression: the canonical source
text, with pointer markers and type-parameter brackets verbatim. -/
def printRecv : RecvType → String
  | .ident n => n
  | .star t => "*" ++ printRecv t
  | .index b ps => printRecv b ++ "[" ++ joinComma ps ++ "]"

mutual
/-- The expression fragment of the Go AST that the call-site visitor
distinguishes: identifiers, selectors, call expressions, function
literals, and a generic node for every other shape (the visitor just
recurses into its children). -/
inductive GoExpr where
  | ident (name : String)
  | selector (x : GoExpr) (sel : String)
  | call (fn : GoExpr) (args : GoExprs) (line : Nat)
  | funcLit (body : GoExprs)
  | other (children : GoExprs)
/-- A list of sibling expression nodes. -/
inductive GoExprs where
  | nil
  | cons (e : GoExpr) (es : GoExprs)
end

/-- A top-level `*ast.FuncDecl`: name, optional receiver, position, body. -/
structure FuncDecl where
  name : String
  recv : Option RecvType
  line : Nat
  body : GoExprs

/-- A top-level declaration of a file: a function/method declaration, or
any other declaration (e.g. a `var` block) whose initializer expressions
the walk still visits — with an empty caller stack. -/
inductive Decl where
  | funcD (f : FuncDecl)
  | varD (exprs : GoExprs)

/-- One entry of `node.Imports`: optional explicit alias and quoted path
(already stripped of its quotes, as `strings.Trim` does). -/
structure ImportSpec where
  name : Option String
  path : String

/-- A parsed source file as both passes see it.  `pkgPath` is the value
`fullPkgPath = filepath.ToSlash(filepath.Join(target.ModulePath, pkgDir))`
that both `findDefinitions` and `findCallSites` compute identically from
the same target and file path, and `filePath` is the slash-normalized
path relative to the target root. -/
structure GoFile where
  filePath : String
  pkgPath : String
  imports : List ImportSpec
  decls : List Decl

/-- Splitting a character list at every occurrence of `sep`
(`strings.Split` with a one-character separator). -/
def splitOnCh (sep : Char) : List Char → List (List Char)
  | [] => [[]]
  | c :: cs =>
      if c = sep then [] :: splitOnCh sep cs
      else
        match splitOnCh sep cs with
        | [] => [[c]]
        | g :: gs => (c :: g) :: gs

/-- `parts[len(parts)-1]` of `strings.Split(path, "/")`. -/
def lastSegment (path : String) : String :=
  ⟨(splitOnCh '/' path.data).getLastD []⟩

/-- Register one import entry in the alias map (`findCallSites`):
a blank-identifier alias is skipped, an explicit alias wins otherwise,
and an unaliased import registers the last slash-separated segment of
its path.  Later writes override earlier ones. -/
def registerImport (m : String → Option String) (imp : ImportSpec) :
    String → Option String :=
  match imp.name with
  | some n =>
      if n = "_" then m
      else fun k => if k = n then some imp.path else m k
  | none => fun k => if k = lastSegment imp.path then some imp.path else m k

/-- The per-file import alias map, built over `node.Imports` in order. -/
def buildImportMap (imports : List ImportSpec) : String → Option String :=
  imports.foldl registerImport (fun _ => none)

/-- `resolveCalleeID`: bare identifier `f` resolves to `currentPkg.f`;
a selector `x.f` resolves through the import alias map only when `x` is
a single identifier registered there; everything else is unresolved. -/
def resolveCalleeID (pkg : String) (imap : String → Option String) :
    GoExpr → String
  | .selector (.ident q) sel =>
      match imap q with
      | some fullPkgPath => fullPkgPath ++ "." ++ sel
      | none => ""
  | .ident f => pkg ++ "." ++ f
  | _ => ""

/-- The caller ID the visitor synthesizes for a declaration — the same
construction `findDefinitions` uses for the Definition ID
(`fmt.Sprintf("%s.%s.%s", pkg, receiverText, name)` for a method,
`fmt.Sprintf("%s.%s", pkg, name)` for a free function). -/
def declID (pkgPath : String) (f : FuncDecl) : String :=
  match f.recv with
  | some rt => pkgPath ++ "." ++ printRecv rt ++ "." ++ f.name
  | none => pkgPath ++ "." ++ f.name

/-- The emission step of `callSiteVisitor.Visit` on a `*ast.CallExpr`:
only when the caller stack is non-empty, resolve the callee and, when
the resolved ID is a key of the mapping index, record one call site
whose caller is the top of the stack. -/
def emitCall (pkg : String) (imap : String → Option String)
    (idx : List String) (fp : String) (stack : List String)
    (fn : GoExpr) (line : Nat) : List (String × CallSite) :=
  match stack with
  | [] => []
  | top :: _ =>
      let callee := resolveCalleeID pkg imap fn
      if callee ∈ idx then [(callee, ⟨fp, line, top⟩)] else []

mutual
/-- `ast.Walk` with `callSiteVisitor` under a fixed caller stack: call
nodes emit via `emitCall` and then have their children walked; function
literals and all other nodes just have their children walked — no node
inside a body ever pushes onto the stack. -/
def visitExpr (pkg : String) (imap : String → Option String)
    (idx : List String) (fp : String) (stack : List String) :
    GoExpr → List (String × CallSite)
  | .ident _ => []
  | .selector x _ => visitExpr pkg imap idx fp stack x
  | .call fn args line =>
      emitCall pkg imap idx fp stack fn line
        ++ visitExpr pkg imap idx fp stack fn
        ++ visitExprs pkg imap idx fp stack args
  | .funcLit body => visitExprs pkg imap idx fp stack body
  | .other children => visitExprs pkg imap idx fp stack children
/-- Walk a list of sibling nodes, concatenating their emissions. -/
def visitExprs (pkg : String) (imap : String → Option String)
    (idx : List String) (fp : String) (stack : List String) :
    GoExprs → List (String × CallSite)
  | .nil => []
  | .cons e es =>
      visitExpr pkg imap idx fp stack e
        ++ visitExprs pkg imap idx fp stack es
end

/-- Walking one top-level declaration: a function declaration pushes its
synthesized ID (so its body is walked under the one-element stack) and
pops on exit; any other declaration's expressions are walked under the
empty stack. -/
def visitDecl (pkg : String) (imap : String → Option String)
    (idx : List String) (fp : String) : Decl → List (String × CallSite)
  | .funcD f => visitExprs pkg imap idx fp [declID pkg f] f.body
  | .varD es => visitExprs pkg imap idx fp [] es

/-- `concatMap`, used in place of the library bind to keep every
definition structurally reducible. -/
def concatMap (f : α → List β) : List α → List β
  | [] => []
  | a :: as => f a ++ concatMap f as

/-- `findDefinitions` restricted to one declaration: the Definition
record it builds (with the receiver rendered by the printer). -/
def mkDef (file : GoFile) (f : FuncDecl) : Definition :=
  { id := declID file.pkgPath f
  , name := f.name
  , pkg := file.pkgPath
  , filePath := file.filePath
  , line := f.line }

/-- All Definitions `findDefinitions` emits for one file: one per
top-level function or method declaration (function literals are not
declarations and are never indexed). -/
def fileDefs (file : GoFile) : List Definition :=
  concatMap
    (fun d =>
      match d with
      | .funcD f => [mkDef file f]
      | .varD _ => []) file.decls

/-- Last-writer-wins insertion into an association list, the model of a
Go map assignment `m[k] = v`. -/
def updateMap (m : List (String × α)) (k : String) (v : α) :
    List (String × α) :=
  if m.any (fun e => e.1 = k) then
    m.map (fun e => if e.1 = k then (k, v) else e)
  else m ++ [(k, v)]

/-- Pass 1 over a list of admitted files, inserting `val d` under key
`d.id` for every Definition, in file order.  Instantiated once for the
`definitions` map and once for the `mappings` map — the two map writes
that `findDefinitions` performs in the same loop iteration. -/
def indexFold (val : Definition → β) (files : List GoFile) :
    List (String × β) :=
  files.foldl
    (fun m file =>
      (fileDefs file).foldl (fun m d => updateMap m d.id (val d)) m) []

/-- The `definitions` index after Pass 1. -/
def pass1Defs (files : List GoFile) : List (String × Definition) :=
  indexFold (fun d => d) files

/-- The `mappings` index after Pass 1: every entry starts with an empty
call-site list. -/
def pass1Maps (files : List GoFile) : List (String × Mapping) :=
  indexFold (fun d => { definition := d, callSites := [] }) files

/-- The key set of the mapping index, against which Pass 2 checks
`if m, found := mappings[calleeID]; found`. -/
def mapKeys (files : List GoFile) : List String :=
  (pass1Maps files).map (fun e => e.1)

/-- `findCallSites` on one file: build the import alias map, then walk
every top-level declaration.  Emissions are (callee ID, CallSite) pairs,
already filtered by membership of the callee in the mapping index. -/
def pass2File (idx : List String) (file : GoFile) :
    List (String × CallSite) :=
  concatMap
    (visitDecl file.pkgPath (buildImportMap file.imports) idx file.filePath)
    file.decls

/-- Pass 2 over the same admitted files, with the index frozen by
Pass 1. -/
def pass2 (files : List GoFile) : List (String × CallSite) :=
  concatMap (pass2File (mapKeys files)) files

/-- Append one emitted call site to the mapping it was resolved to. -/
def appendCallSite (m : List (String × Mapping)) (k : String)
    (cs : CallSite) : List (String × Mapping) :=
  m.map (fun e =>
    if e.1 = k then
      (e.1, { definition := e.2.definition
            , callSites := e.2.callSites ++ [cs] })
    else e)

/-- The whole run on a list of admitted files: Pass 1, Pass 2, then the
aggregator, which keeps exactly the mappings with at least one call
site (`if len(m.CallSites) > 0`). -/
def runAnalysis (files : List GoFile) : List Mapping :=
  let afterPass2 :=
    (pass2 files).foldl (fun m ev => appendCallSite m ev.1 ev.2)
      (pass1Maps files)
  (afterPass2.map (fun e => e.2)).filter
    (fun mp => !mp.callSites.isEmpty)

/-! ### The source walker (`walkAndProcess`)

Paths are modelled as lists of characters; `filepath.WalkDir` visits a
node at the path obtained by joining the parent path and the entry name
with `/`, and the callback first applies the skip patterns (a match on a
directory returns `filepath.SkipDir`, a match on a file skips just that
file), then admits non-directory entries ending in `.go` but not in
`_test.go`. -/

/-- `pat` is a prefix of `s` (character lists). -/
def startsList : List Char → List Char → Bool
  | [], _ => true
  | _ :: _, [] => false
  | p :: ps, s :: ss => p = s && startsList ps ss

/-- `strings.Contains s pat`: some suffix of `s` starts with `pat`. -/
def containsSub : List Char → List Char → Bool
  | [], pat => startsList pat []
  | c :: ss, pat => startsList pat (c :: ss) || containsSub ss pat

/-- `strings.HasSuffix s suf`. -/
def endsList (s suf : List Char) : Bool :=
  startsList suf.reverse s.reverse

mutual
/-- A directory tree: files and directories with names. -/
inductive FSTree where
  | file (name : List Char)
  | dir (name : List Char) (children : FSList)
/-- Directory entries in traversal order. -/
inductive FSList where
  | nil
  | cons (t : FSTree) (ts : FSList)
end

/-- The name of a tree node. -/
def nameOf : FSTree → List Char
  | .file n => n
  | .dir n _ => n

/-- Some user-supplied skip pattern is non-empty and occurs in `path`
(the loop over `skipPatterns` in the `WalkDir` callback). -/
def skipHit (skip : List (List Char)) (path : List Char) : Bool :=
  skip.any (fun pat => !pat.isEmpty && containsSub path pat)

/-- The admission test of the callback: a `.go` file that is not a
`_test.go` file. -/
def goFileOk (path : List Char) : Bool :=
  endsList path ".go".data && !endsList path "_test.go".data

mutual
/-- `filepath.WalkDir` with the analyzer's callback, rooted at a node
whose own traversal path is `path`: the paths of the files handed to the
processor, in traversal order. -/
def walkFrom (skip : List (List Char)) (path : List Char) :
    FSTree → List (List Char)
  | .file _ =>
      if skipHit skip path then []
      else if goFileOk path then [path] else []
  | .dir _ children =>
      if skipHit skip path then []
      else walkChildren skip path children
/-- Walk the entries of a directory whose traversal path is `dirPath`. -/
def walkChildren (skip : List (List Char)) (dirPath : List Char) :
    FSList → List (List Char)
  | .nil => []
  | .cons t ts =>
      walkFrom skip (dirPath ++ '/' :: nameOf t) t
        ++ walkChildren skip dirPath ts
end

mutual
/-- All file paths contained in a tree rooted at traversal path `path`
(no filtering at all). -/
def filesUnder (path : List Char) : FSTree → List (List Char)
  | .file _ => [path]
  | .dir _ children => filesUnderL path children
/-- All file paths under a directory's entries. -/
def filesUnderL (dirPath : List Char) : FSList → List (List Char)
  | .nil => []
  | .cons t ts =>
      filesUnder (dirPath ++ '/' :: nameOf t) t ++ filesUnderL dirPath ts
end

/-! ### Module resolution (`getModulePath`) -/

/-- Modelled from the library `golang.org/x/mod/modfile.ModulePath`
(third-party code, not part of this repository): it is a **total**
function from the manifest text to the declared module path — it
returns the empty string when it cannot find a parseable `module`
directive and never reports an error.  Modelled here as: the text after
`module ` on the first line that starts with it, else `""`. -/
def modulePathOfManifest (content : String) : String :=
  match (splitOnCh '\n' content.data).find?
      (fun l => startsList "module ".data l) with
  | some l => ⟨l.drop 7⟩
  | none => ""

/-- `getModulePath`, parameterized by the result of reading
`<dir>/go.mod`: `none` models a read failure (missing or unreadable
manifest) and propagates as the error that `main` turns into a fatal
`log.Fatalf`; any content that was read is handed to
`modfile.ModulePath`, whose result is returned with no error. -/
def getModulePath (readResult : Option String) : Except String String :=
  match readResult with
  | none => .error "could not read go.mod"
  | some content => .ok (modulePathOfManifest content)

/-! ### Predicates used as lexical side conditions

Go identifiers produced by the parser never contain a `.`; the theorems
about ID shape take this as an explicit hypothesis on the embedded
names. -/

/-- No character of the list is a dot. -/
def noDotChars (l : List Char) : Bool :=
  l.all (fun c => !(c = '.'))

/-- Every identifier occurring in a receiver type expression is
dot-free (the lexical guarantee of the parser). -/
def recvNoDot : RecvType → Bool
  | .ident n => noDotChars n.data
  | .star t => recvNoDot t
  | .index b ps => recvNoDot b && ps.all (fun p => noDotChars p.data)

/-! ### Concrete inputs for the witnesses -/

/-- A pointer-receiver method `func (t *MyType) M()`. -/
def wMethod : FuncDecl :=
  { name := "M", recv := some (.star (.ident "MyType")), line := 4
  , body := .nil }

/-- A file containing only `wMethod`. -/
def wMethodFile : GoFile :=
  { filePath := "p/t.go", pkgPath := "m/p", imports := []
  , decls := [.funcD wMethod] }

/-- `func B(){}`. -/
def wB : FuncDecl := { name := "B", recv := none, line := 3, body := .nil }

/-- `func A(){ B() }`. -/
def wA : FuncDecl :=
  { name := "A", recv := none, line := 1
  , body := .cons (.call (.ident "B") .nil 2) .nil }

/-- A single file of module path `m`, package directory `svc`,
containing `A` and `B`. -/
def wFile : GoFile :=
  { filePath := "svc/a.go", pkgPath := "m/svc", imports := []
  , decls := [.funcD wA, .funcD wB] }

/-- The one mapping the run on `[wFile]` emits: `B` called once
from `A`. -/
def wMap : Mapping :=
  { definition := mkDef wFile wB
  , callSites := [⟨"svc/a.go", 2, "m/svc.A"⟩] }

/-- `func Outer(){ func(){ Inner() }() }`: the nested-literal scenario. -/
def wOuter : FuncDecl :=
  { name := "Outer", recv := none, line := 1
  , body := .cons
      (.call (.funcLit (.cons (.call (.ident "Inner") .nil 2) .nil)) .nil 1)
      .nil }

/-! ## Helper lemmas -/

theorem mem_concatMap {f : α → List β} {b : β} :
    ∀ {l : List α}, b ∈ concatMap f l ↔ ∃ a ∈ l, b ∈ f a := by
  intro l
  induction l with
  | nil => simp [concatMap]
  | cons a as ih => simp [concatMap, List.mem_append, ih]

theorem strData_append (s t : String) : (s ++ t).data = s.data ++ t.data :=
  rfl

theorem strExt {a b : String} (h : a.data = b.data) : a = b := by
  cases a
  cases b
  exact congrArg String.mk h

theorem append_dot_ne_empty (a b : String) : a ++ "." ++ b ≠ "" := by
  intro h
  have h2 : (a ++ "." ++ b).data = ("" : String).data := by rw [h]
  rw [strData_append, strData_append] at h2
  simp at h2

theorem declID_ne_empty (pkg : String) (f : FuncDecl) :
    declID pkg f ≠ "" := by
  cases hr : f.recv with
  | none => simpa [declID, hr] using append_dot_ne_empty pkg f.name
  | some rt => simpa [declID, hr] using append_dot_ne_empty _ f.name

theorem map_fst_replace (m : List (String × α)) (k : String) (v : α) :
    (m.map (fun e => if e.1 = k then (k, v) else e)).map (fun e => e.1) =
      m.map (fun e => e.1) := by
  induction m with
  | nil => rfl
  | cons e es ih =>
      by_cases he : e.1 = k <;> simp [he, ih]

theorem keys_updateMap (m : List (String × α)) (k : String) (v : α) :
    (updateMap m k v).map (fun e => e.1) =
      if m.any (fun e => e.1 = k) then m.map (fun e => e.1)
      else m.map (fun e => e.1) ++ [k] := by
  by_cases h : m.any (fun e => e.1 = k) <;> simp [updateMap, h]
  intro a b _hab
  by_cases h' : a = k <;> simp [h']

theorem mem_keys_updateMap {m : List (String × α)} {k k' : String} {v : α} :
    k' ∈ (updateMap m k v).map (fun e => e.1) ↔
      k' ∈ m.map (fun e => e.1) ∨ k' = k := by
  rw [keys_updateMap]
  by_cases h : m.any (fun e => e.1 = k)
  · have hk : k ∈ m.map (fun e => e.1) := by
      rcases List.any_eq_true.mp h with ⟨e, he, hek⟩
      exact List.mem_map.mpr ⟨e, he, of_decide_eq_true hek⟩
    simp only [h, if_true]
    constructor
    · exact Or.inl
    · rintro (h' | rfl)
      · exact h'
      · exact hk
  · simp [h]

theorem values_updateMap {m : List (String × α)} {k : String} {v : α}
    {Q : α → Prop} (hm : ∀ e ∈ m, Q e.2) (hv : Q v) :
    ∀ e ∈ updateMap m k v, Q e.2 := by
  intro e he
  by_cases h : m.any (fun e => e.1 = k) <;> simp [updateMap, h] at he
  · obtain ⟨a, b, hab, heq⟩ := he
    by_cases h' : a = k
    · rw [if_pos h'] at heq
      rw [← heq]
      exact hv
    · rw [if_neg h'] at heq
      rw [← heq]
      exact hm (a, b) hab
  · rcases he with he | he
    · exact hm e he
    · rw [he]
      exact hv

theorem keys_defsFoldMono {β : Type} (val : Definition → β) :
    ∀ (ds : List Definition) (m : List (String × β)) (k : String),
      k ∈ m.map (fun e => e.1) →
        k ∈ ((ds.foldl (fun m d => updateMap m d.id (val d)) m).map
          (fun e => e.1))
  | [], _, _ => fun h => h
  | d :: ds, m, k => fun h =>
      keys_defsFoldMono val ds (updateMap m d.id (val d)) k
        (mem_keys_updateMap.mpr (Or.inl h))

theorem keys_defsFoldMem {β : Type} (val : Definition → β) :
    ∀ (ds : List Definition) (m : List (String × β)) (d : Definition),
      d ∈ ds →
        d.id ∈ ((ds.foldl (fun m d => updateMap m d.id (val d)) m).map
          (fun e => e.1))
  | [], _, _ => fun h => absurd h (List.not_mem_nil _)
  | d0 :: ds, m, d => fun h => by
      rcases List.mem_cons.mp h with rfl | h
      · exact keys_defsFoldMono val ds _ d.id
          (mem_keys_updateMap.mpr (Or.inr rfl))
      · exact keys_defsFoldMem val ds _ d h

theorem keys_filesFoldMono {β : Type} (val : Definition → β) :
    ∀ (files : List GoFile) (m : List (String × β)) (k : String),
      k ∈ m.map (fun e => e.1) →
        k ∈ ((files.foldl
            (fun m file =>
              (fileDefs file).foldl (fun m d => updateMap m d.id (val d)) m)
            m).map (fun e => e.1))
  | [], _, _ => fun h => h
  | file :: files, m, k => fun h =>
      keys_filesFoldMono val files _ k
        (keys_defsFoldMono val (fileDefs file) m k h)

theorem mem_keys_indexFold {β : Type} (val : Definition → β) :
    ∀ (files : List GoFile) (m : List (String × β)) (file : GoFile)
      (d : Definition), file ∈ files → d ∈ fileDefs file →
        d.id ∈ ((files.foldl
            (fun m file =>
              (fileDefs file).foldl (fun m d => updateMap m d.id (val d)) m)
            m).map (fun e => e.1))
  | [], _, _, _ => fun h _ => absurd h (List.not_mem_nil _)
  | f0 :: files, m, file, d => fun hfile hd => by
      rcases List.mem_cons.mp hfile with rfl | hfile
      · exact keys_filesFoldMono val files _ d.id
          (keys_defsFoldMem val (fileDefs file) m d hd)
      · exact mem_keys_indexFold val files _ file d hfile hd

theorem mem_fileDefs {file : GoFile} {f : FuncDecl}
    (h : Decl.funcD f ∈ file.decls) : mkDef file f ∈ fileDefs file := by
  unfold fileDefs
  exact mem_concatMap.mpr ⟨.funcD f, h, by simp⟩

theorem fileDefs_shape {file : GoFile} {d : Definition}
    (h : d ∈ fileDefs file) :
    ∃ f : FuncDecl, Decl.funcD f ∈ file.decls ∧ d = mkDef file f := by
  unfold fileDefs at h
  obtain ⟨dec, hdec, hd⟩ := mem_concatMap.mp h
  cases dec with
  | funcD f =>
      refine ⟨f, hdec, ?_⟩
      simpa using hd
  | varD es => simp at hd

theorem keys_indexFold_ne_empty {β : Type} (val : Definition → β) :
    ∀ (files : List GoFile) (m : List (String × β)),
      (∀ k ∈ m.map (fun e => e.1), k ≠ "") →
        ∀ k ∈ ((files.foldl
            (fun m file =>
              (fileDefs file).foldl (fun m d => updateMap m d.id (val d)) m)
            m).map (fun e => e.1)), k ≠ ""
  | [], _, hm => hm
  | file :: files, m, hm =>
      keys_indexFold_ne_empty val files _ (by
        have hstep :
            ∀ (ds : List Definition) (m : List (String × β)),
              (∀ k ∈ m.map (fun e => e.1), k ≠ "") →
                (∀ d ∈ ds, d.id ≠ "") →
                  ∀ k ∈ ((ds.foldl (fun m d => updateMap m d.id (val d))
                      m).map (fun e => e.1)), k ≠ "" := by
          intro ds
          induction ds with
          | nil => exact fun m hm _ => hm
          | cons d ds ih =>
              intro m hm hds k hk
              exact ih (updateMap m d.id (val d))
                (fun k' hk' => by
                  rcases mem_keys_updateMap.mp hk' with h | rfl
                  · exact hm k' h
                  · exact hds d (List.mem_cons_self d ds))
                (fun d' hd' => hds d' (List.mem_cons_of_mem d hd')) k hk
        refine hstep (fileDefs file) m hm ?_
        intro d hd
        obtain ⟨f, _, rfl⟩ := fileDefs_shape hd
        exact declID_ne_empty file.pkgPath f)

theorem mapKeys_ne_empty {files : List GoFile} :
    ∀ k ∈ mapKeys files, k ≠ "" :=
  keys_indexFold_ne_empty _ files [] (by simp)

theorem emitCall_caller {pkg : String} {imap : String → Option String}
    {idx : List String} {fp : String} {stack : List String} {fn : GoExpr}
    {line : Nat} {k : String} {cs : CallSite}
    (h : (k, cs) ∈ emitCall pkg imap idx fp stack fn line) :
    stack.head? = some cs.callerID := by
  cases stack with
  | nil => simp [emitCall] at h
  | cons top rest =>
      by_cases hc : resolveCalleeID pkg imap fn ∈ idx <;>
        simp [emitCall, hc] at h
      obtain ⟨-, rfl⟩ := h
      rfl

mutual
theorem visitExpr_caller (pkg : String) (imap : String → Option String)
    (idx : List String) (fp : String) :
    ∀ (e : GoExpr) (stack : List String) (k : String) (cs : CallSite),
      (k, cs) ∈ visitExpr pkg imap idx fp stack e →
        stack.head? = some cs.callerID
  | .ident _, _, _, _ => by intro h; simp [visitExpr] at h
  | .selector x _, stack, k, cs => fun h =>
      visitExpr_caller pkg imap idx fp x stack k cs (by
        simpa [visitExpr] using h)
  | .call fn args line, stack, k, cs => fun h => by
      simp only [visitExpr, List.mem_append] at h
      rcases h with (h | h) | h
      · exact emitCall_caller h
      · exact visitExpr_caller pkg imap idx fp fn stack k cs h
      · exact visitExprs_caller pkg imap idx fp args stack k cs h
  | .funcLit body, stack, k, cs => fun h =>
      visitExprs_caller pkg imap idx fp body stack k cs (by
        simpa [visitExpr] using h)
  | .other children, stack, k, cs => fun h =>
      visitExprs_caller pkg imap idx fp children stack k cs (by
        simpa [visitExpr] using h)
theorem visitExprs_caller (pkg : String) (imap : String → Option String)
    (idx : List String) (fp : String) :
    ∀ (es : GoExprs) (stack : List String) (k : String) (cs : CallSite),
      (k, cs) ∈ visitExprs pkg imap idx fp stack es →
        stack.head? = some cs.callerID
  | .nil, _, _, _ => by intro h; simp [visitExprs] at h
  | .cons e es, stack, k, cs => fun h => by
      simp only [visitExprs, List.mem_append] at h
      rcases h with h | h
      · exact visitExpr_caller pkg imap idx fp e stack k cs h
      · exact visitExprs_caller pkg imap idx fp es stack k cs h
end

mutual
theorem visitExpr_nilStack (pkg : String) (imap : String → Option String)
    (idx : List String) (fp : String) :
    ∀ e : GoExpr, visitExpr pkg imap idx fp [] e = []
  | .ident _ => rfl
  | .selector x _ => by
      simpa [visitExpr] using visitExpr_nilStack pkg imap idx fp x
  | .call fn args line => by
      simp [visitExpr, emitCall, visitExpr_nilStack pkg imap idx fp fn,
        visitExprs_nilStack pkg imap idx fp args]
  | .funcLit body => by
      simpa [visitExpr] using visitExprs_nilStack pkg imap idx fp body
  | .other children => by
      simpa [visitExpr] using visitExprs_nilStack pkg imap idx fp children
theorem visitExprs_nilStack (pkg : String) (imap : String → Option String)
    (idx : List String) (fp : String) :
    ∀ es : GoExprs, visitExprs pkg imap idx fp [] es = []
  | .nil => rfl
  | .cons e es => by
      simp [visitExprs, visitExpr_nilStack pkg imap idx fp e,
        visitExprs_nilStack pkg imap idx fp es]
end

theorem visitDecl_caller {pkg : String} {imap : String → Option String}
    {idx : List String} {fp : String} {d : Decl} {k : String} {cs : CallSite}
    (h : (k, cs) ∈ visitDecl pkg imap idx fp d) :
    ∃ f : FuncDecl, d = .funcD f ∧ cs.callerID = declID pkg f := by
  cases d with
  | funcD f =>
      refine ⟨f, rfl, ?_⟩
      have h2 := visitExprs_caller pkg imap idx fp f.body
        [declID pkg f] k cs h
      simpa using h2.symm
  | varD es =>
      rw [visitDecl, visitExprs_nilStack] at h
      simp at h

theorem values_defsFold {β : Type} (val : Definition → β) {Q : β → Prop} :
    ∀ (ds : List Definition) (m : List (String × β)),
      (∀ e ∈ m, Q e.2) → (∀ d, Q (val d)) →
        ∀ e ∈ ds.foldl (fun m d => updateMap m d.id (val d)) m, Q e.2
  | [], _, hm, _ => hm
  | d :: ds, _m, hm, hv =>
      values_defsFold val ds _ (values_updateMap hm (hv d)) hv

theorem values_filesFold {β : Type} (val : Definition → β) {Q : β → Prop} :
    ∀ (files : List GoFile) (m : List (String × β)),
      (∀ e ∈ m, Q e.2) → (∀ d, Q (val d)) →
        ∀ e ∈ files.foldl
            (fun m file =>
              (fileDefs file).foldl (fun m d => updateMap m d.id (val d)) m)
            m, Q e.2
  | [], _, hm, _ => hm
  | file :: files, m, hm, hv =>
      values_filesFold val files _
        (values_defsFold val (fileDefs file) m hm hv) hv

theorem pass1Maps_callSites {files : List GoFile} :
    ∀ e ∈ pass1Maps files, e.2.callSites = [] := by
  have := values_filesFold
    (fun d => ({ definition := d, callSites := [] } : Mapping))
    (Q := fun mp => mp.callSites = []) files [] (by simp) (fun _ => rfl)
  simpa [pass1Maps, indexFold] using this

theorem foldAppend_callSites (P : CallSite → Prop) :
    ∀ (evs : List (String × CallSite)) (m : List (String × Mapping)),
      (∀ e ∈ m, ∀ cs ∈ e.2.callSites, P cs) →
      (∀ ev ∈ evs, P ev.2) →
      ∀ e ∈ evs.foldl (fun m ev => appendCallSite m ev.1 ev.2) m,
        ∀ cs ∈ e.2.callSites, P cs
  | [], _, hm, _ => hm
  | ev :: evs, m, hm, hev =>
      foldAppend_callSites P evs _ (by
        intro e he cs hcs
        simp only [appendCallSite, List.mem_map] at he
        obtain ⟨e', he', heq⟩ := he
        by_cases h' : e'.1 = ev.1
        · rw [if_pos h'] at heq
          rw [← heq] at hcs
          simp only [List.mem_append, List.mem_singleton] at hcs
          rcases hcs with hcs | rfl
          · exact hm e' he' cs hcs
          · exact hev ev (List.mem_cons_self ev evs)
        · rw [if_neg h'] at heq
          rw [← heq] at hcs
          exact hm e' he' cs hcs)
        (fun ev' hev' => hev ev' (List.mem_cons_of_mem ev hev'))

theorem pass2_caller {files : List GoFile} {k : String} {cs : CallSite}
    (h : (k, cs) ∈ pass2 files) :
    cs.callerID ≠ "" ∧
      cs.callerID ∈ (pass1Defs files).map (fun e => e.1) := by
  obtain ⟨file, hfile, h⟩ := mem_concatMap.mp h
  obtain ⟨d, hd, h⟩ := mem_concatMap.mp h
  obtain ⟨f, rfl, hcid⟩ := visitDecl_caller h
  rw [hcid]
  refine ⟨declID_ne_empty file.pkgPath f, ?_⟩
  have hid : (mkDef file f).id = declID file.pkgPath f := rfl
  rw [← hid]
  simp only [pass1Defs, indexFold]
  exact mem_keys_indexFold (fun d => d) files [] file (mkDef file f)
    hfile (mem_fileDefs hd)

/-! ## The claims -/

/-- Claim C1: for every top-level method declaration indexed in Pass 1,
the synthesized Definition ID equals
`fullPkgPath ++ "." ++ recv ++ "." ++ name`, where `recv` is the
receiver type expression rendered back to its canonical source text
(pointer markers and type-parameter brackets preserved verbatim). -/
theorem claim_C1 (file : GoFile) (f : FuncDecl) (rt : RecvType)
    (hmem : Decl.funcD f ∈ file.decls) (hrecv : f.recv = some rt) :
    mkDef file f ∈ fileDefs file ∧
      (mkDef file f).id =
        file.pkgPath ++ "." ++ printRecv rt ++ "." ++ f.name := by
  refine ⟨mem_fileDefs hmem, ?_⟩
  simp [mkDef, declID, hrecv]

/-- Witness for C1 at the concrete method `func (t *MyType) M()` in a
file of package path `m/p`. -/
theorem claim_C1_witness :
    mkDef wMethodFile wMethod ∈ fileDefs wMethodFile ∧
      (mkDef wMethodFile wMethod).id =
        wMethodFile.pkgPath ++ "." ++ printRecv (.star (.ident "MyType"))
          ++ "." ++ wMethod.name :=
  claim_C1 wMethodFile wMethod (.star (.ident "MyType"))
    (by simp [wMethodFile]) rfl

/-- Claim C2: every call site emitted while walking a top-level
function declaration — including every call inside a nested function
literal — is attributed to that declaration's ID: only declarations
push onto the caller-ID stack, and a function literal's walk is exactly
the walk of its body under the unchanged stack (literals never push). -/
theorem claim_C2 (pkg : String) (imap : String → Option String)
    (idx : List String) (fp : String) (f : FuncDecl) (k : String)
    (cs : CallSite) (h : (k, cs) ∈ visitDecl pkg imap idx fp (.funcD f)) :
    cs.callerID = declID pkg f ∧
      ∀ (stack : List String) (body : GoExprs),
        visitExpr pkg imap idx fp stack (.funcLit body) =
          visitExprs pkg imap idx fp stack body := by
  refine ⟨?_, fun stack body => by simp [visitExpr]⟩
  obtain ⟨f', hf', hcid⟩ := visitDecl_caller h
  cases hf'
  exact hcid

/-- Witness for C2 at the nested-literal scenario
`func Outer(){ func(){ Inner() }() }` with `m.Inner` indexed: the call
site on line 2 carries `callerId = "m.Outer"`, the enclosing top-level
declaration's ID. -/
theorem claim_C2_witness :
    (("m.Inner", (⟨"a.go", 2, "m.Outer"⟩ : CallSite)) ∈
        visitDecl "m" (fun _ => none) ["m.Inner", "m.Outer"] "a.go"
          (.funcD wOuter)) ∧
      CallSite.callerID ⟨"a.go", 2, "m.Outer"⟩ = declID "m" wOuter :=
  ⟨by decide,
    (claim_C2 "m" (fun _ => none) ["m.Inner", "m.Outer"] "a.go" wOuter
      "m.Inner" ⟨"a.go", 2, "m.Outer"⟩ (by decide)).1⟩

/-- Claim C3: every CallSite of the emitted output has a non-empty
`callerId` that is a key of the `definitions` index built in Pass 1 of
the same run; and a call expression observed with an empty caller stack
(file-top-level scope) is never emitted. -/
theorem claim_C3 :
    (∀ (files : List GoFile) (m : Mapping) (cs : CallSite),
        m ∈ runAnalysis files → cs ∈ m.callSites →
          cs.callerID ≠ "" ∧
            cs.callerID ∈ (pass1Defs files).map (fun e => e.1)) ∧
      ∀ (pkg : String) (imap : String → Option String) (idx : List String)
          (fp : String) (es : GoExprs),
        visitDecl pkg imap idx fp (Decl.varD es) = [] := by
  constructor
  · intro files m cs hm hcs
    simp only [runAnalysis] at hm
    have hm2 := (List.mem_filter.mp hm).1
    obtain ⟨e, he, heq⟩ := List.mem_map.mp hm2
    refine foldAppend_callSites
      (fun cs => cs.callerID ≠ "" ∧
        cs.callerID ∈ (pass1Defs files).map (fun e => e.1))
      (pass2 files) (pass1Maps files) ?_ ?_ e he cs ?_
    · intro e' he' cs' hcs'
      rw [pass1Maps_callSites e' he'] at hcs'
      simp at hcs'
    · intro ev hev
      obtain ⟨evk, evcs⟩ := ev
      exact pass2_caller hev
    · rw [heq]
      exact hcs
  · intro pkg imap idx fp es
    rw [visitDecl, visitExprs_nilStack]

/-- Claim C4: every Mapping of the serialized output has a non-empty
call-site list — the aggregator drops every Definition with no
observed call site. -/
theorem claim_C4 (files : List GoFile) (m : Mapping)
    (h : m ∈ runAnalysis files) : m.callSites ≠ [] := by
  simp only [runAnalysis] at h
  have h2 := (List.mem_filter.mp h).2
  intro hnil
  rw [hnil] at h2
  simp at h2

/-- Witness for C4: the single-file run where `A` calls `B` emits
exactly the mapping for `B`, whose call-site list is non-empty. -/
theorem claim_C4_witness : wMap ∈ runAnalysis [wFile] ∧ wMap.callSites ≠ [] :=
  ⟨by decide, claim_C4 [wFile] wMap (by decide)⟩

/-- Claim C5: a call whose callee is a bare identifier `f` resolves to
`currentPkg ++ "." ++ f`, even when `f` is a key of the file's import
alias map — the bare-identifier form never consults the alias map. -/
theorem claim_C5 (pkg : String) (imap : String → Option String)
    (f p : String) (_h : imap f = some p) :
    resolveCalleeID pkg imap (.ident f) = pkg ++ "." ++ f := rfl

/-- Witness for C5: in a file importing `"m/util"` (alias key `util`),
the bare identifier `util` still resolves into the current package. -/
theorem claim_C5_witness :
    resolveCalleeID "m/app" (buildImportMap [⟨none, "m/util"⟩])
      (.ident "util") = "m/app" ++ "." ++ "util" :=
  claim_C5 "m/app" (buildImportMap [⟨none, "m/util"⟩]) "util" "m/util"
    (by decide)

/-- Claim C6: an import entry whose explicit alias is the blank
identifier is never inserted into the import alias map; consequently a
selector call whose qualifier is not registered in the map is
unresolved (`""`) and produces no CallSite — `""` is never a key of
the mapping index. -/
theorem claim_C6 :
    (∀ (m : String → Option String) (p : String),
        registerImport m ⟨some "_", p⟩ = m) ∧
      (∀ (pkg : String) (imap : String → Option String) (q sel : String),
          imap q = none →
            resolveCalleeID pkg imap (.selector (.ident q) sel) = "") ∧
      ∀ (files : List GoFile) (pkg : String)
          (imap : String → Option String) (fp : String)
          (stack : List String) (q sel : String) (line : Nat),
        imap q = none →
          emitCall pkg imap (mapKeys files) fp stack
            (.selector (.ident q) sel) line = [] := by
  refine ⟨fun m p => rfl, fun pkg imap q sel h => by
    simp [resolveCalleeID, h], ?_⟩
  intro files pkg imap fp stack q sel line h
  cases stack with
  | nil => rfl
  | cons top rest =>
      have hres : resolveCalleeID pkg imap (.selector (.ident q) sel) = "" := by
        simp [resolveCalleeID, h]
      have hnot : "" ∉ mapKeys files := fun hmem =>
        mapKeys_ne_empty "" hmem rfl
      simp [emitCall, hres, hnot]

/-- Claim C9 counterexample: with the manifest present but
syntactically unparseable, module resolution does **not** fail — the
module-path extraction is total, so `getModulePath` returns
`ok ""` and the run proceeds. -/
theorem claim_C9_counterexample :
    getModulePath (some "this is not a parseable manifest") =
      Except.ok "" := rfl

/-- Claim C9 (amended): module resolution fails (fatally, in `main`)
exactly when the manifest file cannot be read; readable-but-unparseable
content yields `ok` with whatever the total module-path extraction
returns (the empty string when no module directive is found). -/
theorem claim_C9_amended (r : Option String) :
    (∃ e, getModulePath r = Except.error e) ↔ r = none := by
  cases r <;> simp [getModulePath]

/-- Claim C10: a dot import (explicit alias `.`) is registered in the
alias map under the key `"."`; it never affects the resolution of a
selector qualified by any other identifier (and no identifier can be
`"."`); the bare-identifier form resolves to the current package's ID
and a call of that form is emitted exactly when a same-named local
definition is indexed. -/
theorem claim_C10 :
    (∀ (m : String → Option String) (p : String),
        registerImport m ⟨some ".", p⟩ "." = some p) ∧
      (∀ (m : String → Option String) (p q : String), q ≠ "." →
          registerImport m ⟨some ".", p⟩ q = m q) ∧
      (∀ (pkg : String) (imap : String → Option String) (f : String),
          resolveCalleeID pkg imap (.ident f) = pkg ++ "." ++ f) ∧
      ∀ (pkg : String) (imap : String → Option String) (idx : List String)
          (fp : String) (top : String) (rest : List String) (f : String)
          (line : Nat),
        emitCall pkg imap idx fp (top :: rest) (.ident f) line =
          if pkg ++ "." ++ f ∈ idx
          then [(pkg ++ "." ++ f, ⟨fp, line, top⟩)] else [] := by
  refine ⟨fun m p => by simp [registerImport],
    fun m p q hq => by simp [registerImport, hq],
    fun pkg imap f => rfl,
    fun pkg imap idx fp top rest f line => rfl⟩

theorem noDotChars_iff {l : List Char} :
    noDotChars l = true ↔ ∀ c ∈ l, c ≠ '.' := by
  simp [noDotChars, List.all_eq_true]

theorem joinComma_noDot :
    ∀ ps : List String, (ps.all fun p => noDotChars p.data) = true →
      ∀ c ∈ (joinComma ps).data, c ≠ '.'
  | [] => by intro _ c hc; simp [joinComma] at hc
  | [x] => by
      intro h c hc
      simp only [List.all_cons, List.all_nil, Bool.and_true] at h
      exact noDotChars_iff.mp h c (by simpa [joinComma] using hc)
  | x :: y :: xs => by
      intro h c hc
      simp only [List.all_cons, Bool.and_eq_true] at h
      have hx := noDotChars_iff.mp h.1
      have ih := joinComma_noDot (y :: xs) (by
        simp only [List.all_cons, Bool.and_eq_true]
        exact h.2)
      simp only [joinComma, strData_append, List.mem_append] at hc
      rcases hc with (hc | hc) | hc
      · exact hx c hc
      · have h2 : c = ',' ∨ c = ' ' := by
          have h3 : c ∈ ([',', ' '] : List Char) := hc
          simpa using h3
        rcases h2 with rfl | rfl <;> decide
      · exact ih c hc

theorem printRecv_noDot {rt : RecvType} (h : recvNoDot rt = true) :
    ∀ c ∈ (printRecv rt).data, c ≠ '.' := by
  induction rt with
  | ident n =>
      intro c hc
      exact noDotChars_iff.mp (by simpa [recvNoDot] using h) c hc
  | star t ih =>
      intro c hc
      simp only [printRecv, strData_append, List.mem_append] at hc
      rcases hc with hc | hc
      · have h2 : c = '*' := by
          have h3 : c ∈ (['*'] : List Char) := hc
          simpa using h3
        subst h2
        decide
      · exact ih (by simpa [recvNoDot] using h) c hc
  | index b ps ih =>
      intro c hc
      simp only [recvNoDot, Bool.and_eq_true] at h
      simp only [printRecv, strData_append, List.mem_append] at hc
      rcases hc with ((hc | hc) | hc) | hc
      · exact ih h.1 c hc
      · have h2 : c = '[' := by
          have h3 : c ∈ (['['] : List Char) := hc
          simpa using h3
        subst h2
        decide
      · exact joinComma_noDot ps h.2 c hc
      · have h2 : c = ']' := by
          have h3 : c ∈ ([']'] : List Char) := hc
          simpa using h3
        subst h2
        decide

theorem splitOnCh_noSep (sep : Char) :
    ∀ l : List Char, (∀ c ∈ l, c ≠ sep) → splitOnCh sep l = [l]
  | [] => fun _ => rfl
  | c :: cs => fun h => by
      have hc : c ≠ sep := h c (List.mem_cons_self c cs)
      have ih := splitOnCh_noSep sep cs
        (fun x hx => h x (List.mem_cons_of_mem c hx))
      simp [splitOnCh, hc, ih]

theorem splitOnCh_append (sep : Char) :
    ∀ (a b : List Char), (∀ c ∈ a, c ≠ sep) →
      splitOnCh sep (a ++ sep :: b) = a :: splitOnCh sep b
  | [], b => fun _ => by simp [splitOnCh]
  | c :: a, b => fun h => by
      have hc : c ≠ sep := h c (List.mem_cons_self c a)
      have ih := splitOnCh_append sep a b
        (fun x hx => h x (List.mem_cons_of_mem c hx))
      simp [splitOnCh, hc, ih]

/-- Claim C7: every Definition emitted by Pass 1 has
`id = package ++ "." ++ suffix`, where `suffix` has exactly one
dot-separated component for a free function and exactly two for a
method (the receiver component, then the name).  The hypotheses encode
the parser's lexical guarantee that identifiers contain no dot. -/
theorem claim_C7 (file : GoFile) (f : FuncDecl)
    (hmem : Decl.funcD f ∈ file.decls)
    (hname : noDotChars f.name.data = true)
    (hrecv : ∀ rt, f.recv = some rt → recvNoDot rt = true) :
    mkDef file f ∈ fileDefs file ∧
      ∃ suffix : String,
        (mkDef file f).id = (mkDef file f).pkg ++ "." ++ suffix ∧
          (splitOnCh '.' suffix.data).length =
            match f.recv with
            | none => 1
            | some _ => 2 := by
  refine ⟨mem_fileDefs hmem, ?_⟩
  cases hr : f.recv with
  | none =>
      refine ⟨f.name, by simp [mkDef, declID, hr], ?_⟩
      rw [splitOnCh_noSep '.' f.name.data (noDotChars_iff.mp hname)]
      simp [hr]
  | some rt =>
      refine ⟨printRecv rt ++ "." ++ f.name, ?_, ?_⟩
      · apply strExt
        simp [mkDef, declID, hr, strData_append]
      · have hdata : (printRecv rt ++ "." ++ f.name).data =
            (printRecv rt).data ++ '.' :: f.name.data := by
          simp [strData_append]
        rw [hdata,
          splitOnCh_append '.' _ _ (printRecv_noDot (hrecv rt hr)),
          splitOnCh_noSep '.' f.name.data (noDotChars_iff.mp hname)]
        simp [hr]

/-- Witness for C7 at the concrete method `func (t *MyType) M()`:
its ID splits as package plus a two-component suffix. -/
theorem claim_C7_witness :
    mkDef wMethodFile wMethod ∈ fileDefs wMethodFile ∧
      ∃ suffix : String,
        (mkDef wMethodFile wMethod).id =
            (mkDef wMethodFile wMethod).pkg ++ "." ++ suffix ∧
          (splitOnCh '.' suffix.data).length = 2 :=
  claim_C7 wMethodFile wMethod (by simp [wMethodFile]) (by decide)
    (fun rt hrt => by
      cases hrt
      decide)

theorem startsList_append :
    ∀ (pat s r : List Char), startsList pat s = true →
      startsList pat (s ++ r) = true
  | [], _, _ => fun _ => rfl
  | p :: ps, [], r => fun h => by simp [startsList] at h
  | p :: ps, c :: cs, r => fun h => by
      simp only [startsList, Bool.and_eq_true, decide_eq_true_eq] at h ⊢
      exact ⟨h.1, startsList_append ps cs r h.2⟩

theorem containsSub_nil_pat : ∀ s : List Char, containsSub s [] = true
  | [] => rfl
  | _ :: ss => by simp [containsSub, startsList, containsSub_nil_pat ss]

theorem containsSub_append :
    ∀ (s r pat : List Char), containsSub s pat = true →
      containsSub (s ++ r) pat = true
  | [], r, pat => fun h => by
      cases pat with
      | nil => simpa using containsSub_nil_pat r
      | cons p ps => simp [containsSub, startsList] at h
  | c :: ss, r, pat => fun h => by
      simp only [containsSub, Bool.or_eq_true] at h ⊢
      rcases h with h | h
      · exact Or.inl (startsList_append pat (c :: ss) r h)
      · exact Or.inr (containsSub_append ss r pat h)

theorem skipHit_append {skip : List (List Char)} {path : List Char}
    (h : skipHit skip path = true) (r : List Char) :
    skipHit skip (path ++ r) = true := by
  simp only [skipHit, List.any_eq_true, Bool.and_eq_true,
    Bool.not_eq_true'] at h ⊢
  obtain ⟨pat, hpat, hne, hsub⟩ := h
  exact ⟨pat, hpat, hne, containsSub_append path r pat hsub⟩

mutual
theorem filesUnder_ext :
    ∀ (t : FSTree) (path p : List Char), p ∈ filesUnder path t →
      ∃ r, p = path ++ r
  | .file n, path, p => fun h => by
      simp only [filesUnder, List.mem_singleton] at h
      exact ⟨[], by simp [h]⟩
  | .dir n ch, path, p => fun h => filesUnderL_ext ch path p h
theorem filesUnderL_ext :
    ∀ (ts : FSList) (dirPath p : List Char), p ∈ filesUnderL dirPath ts →
      ∃ r, p = dirPath ++ r
  | .nil, _, p => fun h => by simp [filesUnderL] at h
  | .cons t ts, dirPath, p => fun h => by
      simp only [filesUnderL, List.mem_append] at h
      rcases h with h | h
      · obtain ⟨r, hr⟩ := filesUnder_ext t (dirPath ++ '/' :: nameOf t) p h
        exact ⟨'/' :: nameOf t ++ r, by simp [hr]⟩
      · exact filesUnderL_ext ts dirPath p h
end

mutual
theorem walkFrom_mem :
    ∀ (t : FSTree) (skip : List (List Char)) (path p : List Char),
      p ∈ walkFrom skip path t ↔
        p ∈ filesUnder path t ∧ goFileOk p = true ∧ skipHit skip p = false
  | .file n, skip, path, p => by
      constructor
      · intro h
        by_cases hs : skipHit skip path <;> simp [walkFrom, hs] at h
        by_cases hg : goFileOk path <;> simp [hg] at h
        subst h
        exact ⟨by simp [filesUnder], hg, by simpa using hs⟩
      · rintro ⟨hmem, hg, hs⟩
        simp only [filesUnder, List.mem_singleton] at hmem
        subst hmem
        simp [walkFrom, hs, hg]
  | .dir n ch, skip, path, p => by
      by_cases hs : skipHit skip path
      · simp only [walkFrom, hs, if_true, filesUnder, List.not_mem_nil,
          false_iff]
        rintro ⟨hmem, hg, hp⟩
        obtain ⟨r, rfl⟩ := filesUnder_ext (.dir n ch) path p hmem
        rw [skipHit_append hs r] at hp
        simp at hp
      · simp only [walkFrom, hs, if_false, filesUnder]
        exact walkChildren_mem ch skip path p
theorem walkChildren_mem :
    ∀ (ts : FSList) (skip : List (List Char)) (dirPath p : List Char),
      p ∈ walkChildren skip dirPath ts ↔
        p ∈ filesUnderL dirPath ts ∧ goFileOk p = true ∧
          skipHit skip p = false
  | .nil, _, _, _ => by simp [walkChildren, filesUnderL]
  | .cons t ts, skip, d, p => by
      simp only [walkChildren, filesUnderL, List.mem_append,
        walkFrom_mem t skip (d ++ '/' :: nameOf t) p,
        walkChildren_mem ts skip d p]
      tauto
end

/-- Claim C8: during traversal a file is handed to the processor iff it
has the `.go` extension, its name does not end in `_test.go`, and no
non-empty user-supplied skip substring occurs anywhere in its traversal
path (a directory match prunes the subtree via `filepath.SkipDir`, a
file match skips just that file, empty substrings are ignored — see
`walkFrom`). -/
theorem claim_C8 (skip : List (List Char)) (t : FSTree)
    (path p : List Char) :
    p ∈ walkFrom skip path t ↔
      p ∈ filesUnder path t ∧
        endsList p ".go".data = true ∧
        endsList p "_test.go".data = false ∧
        ∀ pat ∈ skip, pat ≠ [] → containsSub p pat = false := by
  rw [walkFrom_mem t skip path p]
  constructor
  · rintro ⟨hmem, hg, hs⟩
    simp only [goFileOk, Bool.and_eq_true, Bool.not_eq_true'] at hg
    refine ⟨hmem, hg.1, hg.2, ?_⟩
    intro pat hpatmem hne
    cases hcc : containsSub p pat with
    | false => rfl
    | true =>
        have hisE : pat.isEmpty = false := by
          cases pat with
        | nil => exact absurd rfl hne
        | cons a l => rfl
        have ht : skipHit skip p = true := by
          simp only [skipHit, List.any_eq_true]
          exact ⟨pat, hpatmem, by simp [hisE, hcc]⟩
        exact absurd (ht.symm.trans hs) (by decide)
  · rintro ⟨hmem, hgo, htest, hpat⟩
    refine ⟨hmem, by simp [goFileOk, hgo, htest], ?_⟩
    apply Bool.eq_false_iff.mpr
    intro hany
    obtain ⟨pat, hp, hb⟩ := List.any_eq_true.mp hany
    simp only [Bool.and_eq_true, Bool.not_eq_true'] at hb
    have hne : pat ≠ [] := by
      intro h0
      rw [h0] at hb
      simp at hb
    rw [hpat pat hp hne] at hb
    exact absurd hb.2 (by decide)

end CodeMapper
